import Mathlib

/-!
Shallow embedding of the scaffold-resolution and materialization engine of
`create-q-base-web` (file `src/index.ts`), together with proofs settling the
frozen claims about its natural-language specification.

Strings are modelled as `List Char`.  Each definition follows the JavaScript
source function it is named after; JavaScript string primitives (`trim`,
`split`, `replace`, regular-expression tests) are embedded explicitly.
-/

set_option maxRecDepth 8000

/-- Characters treated as whitespace by the JavaScript `String.prototype.trim`
operation and by the regular-expression class `\s`. -/
def isJsWhitespace (c : Char) : Bool :=
  c = ' ' || c = '\t' || c = '\n' || c = '\r' ||
  c = Char.ofNat 11 || c = Char.ofNat 12 || c = Char.ofNat 160 ||
  c = Char.ofNat 0x1680 || (0x2000 ≤ c.toNat && c.toNat ≤ 0x200A) ||
  c = Char.ofNat 0x2028 || c = Char.ofNat 0x2029 || c = Char.ofNat 0x202F ||
  c = Char.ofNat 0x205F || c = Char.ofNat 0x3000 || c = Char.ofNat 0xFEFF

/-- Drop the longest trailing run of characters satisfying `p`
(used to model anchored-suffix regular-expression replacement with the
empty string, and the trailing half of `trim`). -/
def dropTrailing (p : Char → Bool) (l : List Char) : List Char :=
  (l.reverse.dropWhile p).reverse

/-- JavaScript `String.prototype.trim`: removes leading and trailing
whitespace. -/
def jsTrim (l : List Char) : List Char :=
  dropTrailing isJsWhitespace (l.dropWhile isJsWhitespace)

/-- Source `formatTargetDir` (src/index.ts:297-299):
`targetDir.trim().replace(/\/+$/g, '')` — trim whitespace, then strip any
trailing run of `/` characters. -/
def formatTargetDir (l : List Char) : List Char :=
  dropTrailing (fun c => c = '/') (jsTrim l)

/-! Helper lemmas about `dropWhile` / `dropTrailing`. -/

theorem head_false_of_dropWhile {p : Char → Bool} {l : List Char} {c : Char}
    (h : (l.dropWhile p).head? = some c) : p c = false := by
  induction l with
  | nil => simp [List.dropWhile] at h
  | cons a l ih =>
    by_cases hpa : p a
    · rw [List.dropWhile_cons_of_pos hpa] at h
      exact ih h
    · rw [List.dropWhile_cons_of_neg hpa] at h
      simp only [List.head?_cons, Option.some.injEq] at h
      subst h
      exact Bool.of_not_eq_true hpa

theorem dropWhile_eq_self_of_head {p : Char → Bool} {l : List Char}
    (h : ∀ c, l.head? = some c → p c = false) : l.dropWhile p = l := by
  cases l with
  | nil => rfl
  | cons a l =>
    have : p a = false := h a rfl
    exact List.dropWhile_cons_of_neg (by simp [this])

theorem dropTrailing_getLast_false {p : Char → Bool} {l : List Char} {c : Char}
    (h : (dropTrailing p l).getLast? = some c) : p c = false := by
  unfold dropTrailing at h
  rw [List.getLast?_reverse] at h
  exact head_false_of_dropWhile h

theorem dropTrailing_eq_self {p : Char → Bool} {l : List Char}
    (h : ∀ c, l.getLast? = some c → p c = false) : dropTrailing p l = l := by
  unfold dropTrailing
  have : l.reverse.dropWhile p = l.reverse := by
    apply dropWhile_eq_self_of_head
    intro c hc
    rw [List.head?_reverse] at hc
    exact h c hc
  rw [this, List.reverse_reverse]

theorem dropTrailing_isPrefixOf (p : Char → Bool) (l : List Char) :
    dropTrailing p l <+: l := by
  unfold dropTrailing
  have h : (l.reverse.dropWhile p).reverse <+: l.reverse.reverse :=
    List.reverse_prefix.mpr (List.dropWhile_suffix p)
  simpa using h

theorem head_of_isPrefixOf {l₁ l₂ : List Char} (h : l₁ <+: l₂) {c : Char}
    (hc : l₁.head? = some c) : l₂.head? = some c := by
  obtain ⟨t, rfl⟩ := h
  cases l₁ with
  | nil => simp at hc
  | cons a l => simpa using hc

/-- Claim C1 (counterexample): `formatTargetDir` is not idempotent as the
spec states it; on `"a /"` the first application yields `"a "` (stripping
the trailing slash exposes a trailing space) and the second yields `"a"`. -/
theorem formatTargetDir_not_idempotent :
    formatTargetDir (formatTargetDir ("a /".toList)) ≠
      formatTargetDir ("a /".toList) := by decide

/-- Claim C1 (amended): `formatTargetDir` trims whitespace and strips any
trailing run of `/`, and it is idempotent on every string whose formatted
result does not end in a whitespace character (stripping trailing slashes
can expose trailing whitespace, which only a second application trims). -/
theorem formatTargetDir_idem (s : List Char)
    (h : ((formatTargetDir s).getLast?.all fun c => !isJsWhitespace c) = true) :
    formatTargetDir (formatTargetDir s) = formatTargetDir s := by
  have hlast : ∀ c, (formatTargetDir s).getLast? = some c →
      isJsWhitespace c = false := by
    intro c hc
    rw [hc] at h
    simpa using h
  have hnolead : (formatTargetDir s).dropWhile isJsWhitespace =
      formatTargetDir s := by
    apply dropWhile_eq_self_of_head
    intro c hc
    have h₁ : (jsTrim s).head? = some c :=
      head_of_isPrefixOf (dropTrailing_isPrefixOf _ _) hc
    have h₂ : ((s.dropWhile isJsWhitespace).head?) = some c :=
      head_of_isPrefixOf (dropTrailing_isPrefixOf _ _) h₁
    exact head_false_of_dropWhile h₂
  have htrim : jsTrim (formatTargetDir s) = formatTargetDir s := by
    unfold jsTrim
    rw [hnolead]
    exact dropTrailing_eq_self hlast
  have hnoslash : dropTrailing (fun c => c = '/') (formatTargetDir s) =
      formatTargetDir s := by
    apply dropTrailing_eq_self
    intro c hc
    exact dropTrailing_getLast_false hc
  show dropTrailing (fun c => c = '/') (jsTrim (formatTargetDir s)) =
      formatTargetDir s
  rw [htrim]
  exact hnoslash

/-- Witness for the amended claim C1 at the concrete input `"abc/"`. -/
theorem formatTargetDir_idem_witness :
    formatTargetDir (formatTargetDir ("abc/".toList)) =
      formatTargetDir ("abc/".toList) :=
  formatTargetDir_idem ("abc/".toList) (by decide)

/-! Package-name validation (source `isValidPackageName`, src/index.ts:310-314)
and normalization (source `toValidPackageName`, src/index.ts:316-323). -/

/-- Lowercase ASCII letter, `a` through `z`. -/
def isLowerAZ (c : Char) : Bool := 'a' ≤ c && c ≤ 'z'

/-- ASCII digit, the regular-expression class `\d`. -/
def isDigitCh (c : Char) : Bool := '0' ≤ c && c ≤ '9'

/-- Leading character class of the scope piece in the source regex:
`[a-z\d\-*~]` (note that it contains the asterisk). -/
def scopeStartCh (c : Char) : Bool :=
  isLowerAZ c || isDigitCh c || c = '-' || c = '*' || c = '~'

/-- Continuation character class of the scope piece: `[a-z\d\-*._~]`. -/
def scopeContCh (c : Char) : Bool := scopeStartCh c || c = '.' || c = '_'

/-- Leading character class of the name piece: `[a-z\d\-~]`. -/
def nameStartCh (c : Char) : Bool :=
  isLowerAZ c || isDigitCh c || c = '-' || c = '~'

/-- Continuation character class of the name piece: `[a-z\d\-._~]`. -/
def nameContCh (c : Char) : Bool := nameStartCh c || c = '.' || c = '_'

/-- Matches the regex piece `[a-z\d\-~][a-z\d\-._~]*` against a whole list. -/
def matchNamePart (l : List Char) : Bool :=
  match l with
  | [] => false
  | c :: cs => nameStartCh c && cs.all nameContCh

/-- Matches the regex piece `[a-z\d\-*~][a-z\d\-*._~]*` against a whole
list. -/
def matchScopePart (l : List Char) : Bool :=
  match l with
  | [] => false
  | c :: cs => scopeStartCh c && cs.all scopeContCh

/-- Split a character list at its first `/`, returning the parts before and
after it. -/
def splitAtSlash : List Char → Option (List Char × List Char)
  | [] => none
  | c :: cs =>
    if c = '/' then some ([], cs)
    else
      match splitAtSlash cs with
      | some (a, b) => some (c :: a, b)
      | none => none

/-- Source `isValidPackageName`: the anchored regular expression
`^(?:@[a-z\d\-*~][a-z\d\-*._~]*\/)?[a-z\d\-~][a-z\d\-._~]*$`.  Because `@`
and `/` occur in none of the character classes, a string starting with `@`
can match only through the optional scope group, whose scope part must end
exactly at the first `/`; the embedding therefore dispatches on a leading
`@` and splits at the first slash. -/
def isValidPackageName (s : List Char) : Bool :=
  match s with
  | [] => false
  | c :: cs =>
    if c = '@' then
      match splitAtSlash cs with
      | some (a, b) => matchScopePart a && matchNamePart b
      | none => false
    else matchNamePart (c :: cs)

/-- Nonempty segment whose head satisfies `startCh` and whose remaining
characters satisfy `contCh`. -/
def segmentOk (startCh contCh : Char → Bool) (l : List Char) : Bool :=
  match l with
  | [] => false
  | c :: cs => startCh c && cs.all contCh

/-- Modelled from the spec: the npm package-name grammar as the spec words
it — an optional `@scope/` prefix followed by a name, with the scope's
character classes given as parameters and the split position between scope
and name found by searching every position of the string. -/
def specPackageNameGrammar (startCh contCh : Char → Bool) (s : List Char) : Bool :=
  matchNamePart s ||
  (match s with
   | [] => false
   | c :: t =>
     (c == '@') &&
     (List.range t.length).any fun i =>
       segmentOk startCh contCh (t.take i) && (t[i]? == some '/') &&
       matchNamePart (t.drop (i + 1)))

/-- Scope-start class exactly as the spec's words give it: a lowercase
letter, digit, hyphen, or tilde (no asterisk). -/
def specScopeStartCh (c : Char) : Bool :=
  isLowerAZ c || isDigitCh c || c = '-' || c = '~'

/-- Scope-continuation class as the spec's words give it: the start class
plus dot and underscore (no asterisk). -/
def specScopeContCh (c : Char) : Bool := specScopeStartCh c || c = '.' || c = '_'

theorem splitAtSlash_eq_some {t a b : List Char}
    (h : splitAtSlash t = some (a, b)) : t = a ++ '/' :: b ∧ '/' ∉ a := by
  induction t generalizing a b with
  | nil => simp [splitAtSlash] at h
  | cons c cs ih =>
    by_cases hc : c = '/'
    · subst hc
      simp [splitAtSlash] at h
      obtain ⟨rfl, rfl⟩ := h
      simp
    · simp only [splitAtSlash, if_neg hc] at h
      cases hcs : splitAtSlash cs with
      | none => rw [hcs] at h; simp at h
      | some p =>
        obtain ⟨a', b'⟩ := p
        rw [hcs] at h
        simp only [Option.some.injEq, Prod.mk.injEq] at h
        obtain ⟨rfl, rfl⟩ := (by exact ⟨h.1.symm, h.2.symm⟩ : a = c :: a' ∧ b = b')
        obtain ⟨ht, hna⟩ := ih hcs
        constructor
        · rw [ht]; rfl
        · intro hmem
          cases hmem with
          | head => exact hc rfl
          | tail _ hm => exact hna hm

theorem splitAtSlash_append {a b : List Char} (h : '/' ∉ a) :
    splitAtSlash (a ++ '/' :: b) = some (a, b) := by
  induction a with
  | nil => simp [splitAtSlash]
  | cons c a' ih =>
    have hc : c ≠ '/' := fun e => h (e ▸ List.mem_cons_self c a')
    have h' : '/' ∉ a' := fun m => h (List.mem_cons_of_mem c m)
    have hih := ih h'
    simp only [List.cons_append, splitAtSlash, if_neg hc, List.append_eq, hih]

theorem matchScopePart_no_slash {a : List Char} (h : matchScopePart a = true) :
    '/' ∉ a := by
  cases a with
  | nil => simp
  | cons c cs =>
    simp only [matchScopePart, Bool.and_eq_true, List.all_eq_true] at h
    intro hmem
    cases hmem with
    | head =>
      exact absurd h.1 (by decide)
    | tail _ hm =>
      have := h.2 _ hm
      exact absurd this (by decide)

theorem segmentOk_eq_matchScopePart (l : List Char) :
    segmentOk scopeStartCh scopeContCh l = matchScopePart l := by
  cases l <;> rfl

theorem scoped_match_eq (t : List Char) :
    (match splitAtSlash t with
     | some (a, b) => matchScopePart a && matchNamePart b
     | none => false) =
    ((List.range t.length).any fun i =>
      segmentOk scopeStartCh scopeContCh (t.take i) && (t[i]? == some '/') &&
      matchNamePart (t.drop (i + 1))) := by
  rw [Bool.eq_iff_iff]
  constructor
  · intro h
    cases hsp : splitAtSlash t with
    | none => rw [hsp] at h; simp at h
    | some p =>
      obtain ⟨a, b⟩ := p
      rw [hsp] at h
      simp only [Bool.and_eq_true] at h
      obtain ⟨hts, hna⟩ := splitAtSlash_eq_some hsp
      subst hts
      rw [List.any_eq_true]
      refine ⟨a.length, List.mem_range.mpr ?_, ?_⟩
      · simp only [List.length_append, List.length_cons]
        omega
      · have hget : (a ++ '/' :: b)[a.length]? = some '/' := by
          rw [List.getElem?_append_right (Nat.le_refl _)]
          simp
        have hdrop : (a ++ '/' :: b).drop (a.length + 1) = b := by
          rw [@List.drop_append _ a ('/' :: b) 1]
          rfl
        rw [List.take_left, hget, hdrop, segmentOk_eq_matchScopePart]
        simp [h.1, h.2]
  · intro h
    rw [List.any_eq_true] at h
    obtain ⟨i, hi, hcond⟩ := h
    simp only [Bool.and_eq_true, beq_iff_eq] at hcond
    obtain ⟨⟨hscope, hslash⟩, hname⟩ := hcond
    rw [segmentOk_eq_matchScopePart] at hscope
    have hlt : i < t.length := List.mem_range.mp hi
    have hdecomp : t = t.take i ++ '/' :: t.drop (i + 1) := by
      conv_lhs => rw [← List.take_append_drop i t]
      congr 1
      rw [List.drop_eq_getElem_cons hlt]
      congr 1
      have := List.getElem?_eq_some_iff.mp hslash
      obtain ⟨h', he⟩ := this
      exact he
    rw [hdecomp, splitAtSlash_append (matchScopePart_no_slash hscope)]
    simp [hscope, hname]

/-- Claim C3 (counterexample): the source regex additionally allows `*` in
the scope part, so `isValidPackageName` accepts `"@*/a"` while the grammar
the spec words (scope starting with a lowercase letter, digit, hyphen, or
tilde) rejects it. -/
theorem isValidPackageName_beyond_spec_grammar :
    isValidPackageName ("@*/a".toList) = true ∧
    specPackageNameGrammar specScopeStartCh specScopeContCh ("@*/a".toList) = false := by
  decide

/-- Claim C3 (amended): `isValidPackageName` accepts exactly the names of
the npm package-name grammar once the scope's character classes are widened
to also contain `*` (optional `@scope/` prefix, scope starting with a
lowercase letter, digit, hyphen, asterisk, or tilde and continuing with
those plus dot and underscore; name starting with a lowercase letter,
digit, hyphen, or tilde and continuing with those plus dot and underscore);
in particular `"@scope/name-1"` is accepted and `"UPPER"` and
`".starts-with-dot"` are rejected. -/
theorem isValidPackageName_spec :
    (∀ s, isValidPackageName s =
      specPackageNameGrammar scopeStartCh scopeContCh s) ∧
    isValidPackageName ("@scope/name-1".toList) = true ∧
    isValidPackageName ("UPPER".toList) = false ∧
    isValidPackageName (".starts-with-dot".toList) = false := by
  refine ⟨?_, by decide, by decide, by decide⟩
  intro s
  cases s with
  | nil => rfl
  | cons c cs =>
    by_cases hc : c = '@'
    · subst hc
      have hname : matchNamePart ('@' :: cs) = false := by
        simp [matchNamePart]
        exact fun h => absurd h (by decide)
      simp only [isValidPackageName, if_pos rfl, specPackageNameGrammar, hname,
        Bool.false_or, beq_self_eq_true, Bool.true_and]
      exact scoped_match_eq cs
    · have hbeq : (c == '@') = false := by
        simp [hc]
      simp only [isValidPackageName, if_neg hc, specPackageNameGrammar, hbeq,
        Bool.false_and, Bool.or_false]

/-- Keep characters satisfying `p` and replace every maximal run of
characters failing `p` by the single character `r` — the JavaScript global
regular-expression replacement of one-or-more-character runs.  The flag
`inRun` records whether the previous character belonged to a failing run. -/
def replaceRunsAux (p : Char → Bool) (r : Char) : Bool → List Char → List Char
  | _, [] => []
  | inRun, c :: cs =>
    if p c then c :: replaceRunsAux p r false cs
    else if inRun then replaceRunsAux p r true cs
    else r :: replaceRunsAux p r true cs

/-- Replace every maximal run of characters failing `p` by `r`. -/
def replaceRuns (p : Char → Bool) (r : Char) (l : List Char) : List Char :=
  replaceRunsAux p r false l

/-- Source regex `/^[._]/` replaced by the empty string: strip a single
leading `.` or `_`. -/
def stripLeadingDotUnderscore : List Char → List Char
  | [] => []
  | c :: cs => if c = '.' || c = '_' then cs else c :: cs

/-- JavaScript `String.prototype.toLowerCase`, as the simple case mapping on
ASCII letters (the later replacement step maps every character outside
`[a-z0-9-~]` to `-`, so only the ASCII behaviour is observable here). -/
def jsToLower (l : List Char) : List Char := l.map Char.toLower

/-- Source `toValidPackageName`: trim, lowercase, collapse whitespace runs
(`/\s+/g`) to single hyphens, strip a single leading `.` or `_`, then
replace every run of characters outside `[a-z0-9-~]` — the complement of
the `nameStartCh` class — with a single hyphen. -/
def toValidPackageName (l : List Char) : List Char :=
  replaceRuns nameStartCh '-'
    (stripLeadingDotUnderscore
      (replaceRuns (fun c => !isJsWhitespace c) '-' (jsToLower (jsTrim l))))

theorem replaceRunsAux_all {p : Char → Bool} {r : Char} (hr : p r = true) :
    ∀ (b : Bool) (l : List Char), (replaceRunsAux p r b l).all p = true := by
  intro b l
  induction l generalizing b with
  | nil => rfl
  | cons c cs ih =>
    by_cases hc : p c
    · simp [replaceRunsAux, hc, ih]
    · cases b with
      | false => simp [replaceRunsAux, hc, ih, hr]
      | true => simp [replaceRunsAux, hc, ih]

/-- Claim C4: whenever `toValidPackageName` returns a non-empty string, that
string satisfies `isValidPackageName` — every character of the result lies
in the class `[a-z0-9-~]`, which is exactly the regex's unscoped leading
class and is contained in its continuation class. -/
theorem toValidPackageName_valid (s : List Char)
    (h : toValidPackageName s ≠ []) :
    isValidPackageName (toValidPackageName s) = true := by
  have hall : (toValidPackageName s).all nameStartCh = true :=
    replaceRunsAux_all (by decide) false _
  cases hx : toValidPackageName s with
  | nil => exact absurd hx h
  | cons c cs =>
    rw [hx] at hall
    simp only [List.all_cons, Bool.and_eq_true, List.all_eq_true] at hall
    have hc : c ≠ '@' := by
      intro e
      subst e
      exact absurd hall.1 (by decide)
    show isValidPackageName (c :: cs) = true
    simp only [isValidPackageName, if_neg hc, matchNamePart, Bool.and_eq_true,
      List.all_eq_true]
    refine ⟨hall.1, fun x hx2 => ?_⟩
    have hns := hall.2 x hx2
    simp [nameContCh, hns]

/-- Witness for claim C4 at the concrete input `" My App!"`, whose
normalization is `"my-app-"`. -/
theorem toValidPackageName_valid_witness :
    toValidPackageName (" My App!".toList) ≠ [] ∧
    isValidPackageName (toValidPackageName (" My App!".toList)) = true :=
  ⟨by decide, toValidPackageName_valid (" My App!".toList) (by decide)⟩

/-! Package-manager detection (source `pkgFromUserAgent`, src/index.ts:356-364),
command rewriting (source `getFullCustomCommand`, src/index.ts:366-397) and
the delegate branch of `init` (src/index.ts:233-243). -/

/-- JavaScript `String.prototype.split` with a single-character separator:
the result has one more part than there are separators and is never
empty. -/
def jsSplit (sep : Char) : List Char → List (List Char)
  | [] => [[]]
  | c :: cs =>
    if c = sep then [] :: jsSplit sep cs
    else
      match jsSplit sep cs with
      | t :: ts => (c :: t) :: ts
      | [] => [[c]]

/-- Runtime shape of the source's `PkgInfo`: `pkgSpecArr[1]` is `undefined`
when the first token contains no `/`, so the version is an `Option` even
though the declared TypeScript interface promises a string. -/
structure PkgInfo where
  name : List Char
  version : Option (List Char)
deriving DecidableEq

/-- Source `pkgFromUserAgent`: an absent or empty (falsy) user agent gives
`undefined`; otherwise the string is split on single spaces, the first part
is split on `/`, and parts `0` and `1` become the name and the version. -/
def pkgFromUserAgent : Option (List Char) → Option PkgInfo
  | none => none
  | some ua =>
    if ua = [] then none
    else
      some ⟨(jsSplit '/' ((jsSplit ' ' ua).headD [])).headD [],
            (jsSplit '/' ((jsSplit ' ' ua).headD []))[1]?⟩

def npmName : List Char := "npm".toList

def yarnName : List Char := "yarn".toList

def pnpmName : List Char := "pnpm".toList

def bunName : List Char := "bun".toList

def npmCreateSp : List Char := "npm create ".toList

def npmCreateDashSp : List Char := "npm create -- ".toList

def npmExecTok : List Char := "npm exec".toList

def latestTag : List Char := "@latest".toList

/-- JavaScript `String.prototype.replace` with a plain-string pattern:
replaces only the first occurrence of `pat` (the replacement comes from a
callback, so no dollar-pattern expansion applies). -/
def replaceFirst (pat rep : List Char) : List Char → List Char
  | [] => if pat.isPrefixOf ([] : List Char) then rep else []
  | c :: cs =>
    if pat.isPrefixOf (c :: cs) then rep ++ (c :: cs).drop pat.length
    else c :: replaceFirst pat rep cs

/-- The rewriting pipeline of `getFullCustomCommand` for an effective
package-manager name and an already-computed yarn-1 flag: first the
anchored `npm create ` / `npm create -- ` prefix (the optional `-- ` is
matched greedily, and the generic replacement checks the original command
for the `-- ` form), then the first `@latest` (removed only for yarn 1),
then the anchored `npm exec` prefix. -/
def rewriteCommand (customCommand : List Char) (pkgManager : List Char)
    (isYarn1 : Bool) : List Char :=
  let createRepl :=
    if pkgManager = bunName then ("bun x create-".toList)
    else if pkgManager = pnpmName then ("pnpm create ".toList)
    else if npmCreateDashSp.isPrefixOf customCommand then
      pkgManager ++ " create -- ".toList
    else pkgManager ++ " create ".toList
  let step1 :=
    if npmCreateDashSp.isPrefixOf customCommand then
      createRepl ++ customCommand.drop npmCreateDashSp.length
    else if npmCreateSp.isPrefixOf customCommand then
      createRepl ++ customCommand.drop npmCreateSp.length
    else customCommand
  let step2 := replaceFirst latestTag (if isYarn1 then [] else latestTag) step1
  if npmExecTok.isPrefixOf step2 then
    (if pkgManager = pnpmName then ("pnpm dlx".toList)
     else if pkgManager = yarnName && !isYarn1 then ("yarn dlx".toList)
     else if pkgManager = bunName then ("bun x".toList)
     else npmExecTok) ++ step2.drop npmExecTok.length
  else step2

/-- Source `getFullCustomCommand`: derives the effective manager name
(`npm` when no package-manager info is present) and eagerly evaluates
`pkgInfo?.version.startsWith('1.')` for the yarn-1 flag, which dereferences
an undefined version — modelled as `none`, the thrown TypeError — whenever
the manager name is `yarn` but the info carries no version. -/
def getFullCustomCommand (customCommand : List Char)
    (pkgInfo : Option PkgInfo) : Option (List Char) :=
  let pkgManager := match pkgInfo with
    | some info => info.name
    | none => npmName
  match (if pkgManager = yarnName then
          match pkgInfo with
          | some info =>
            match info.version with
            | some v => some ("1.".toList.isPrefixOf v)
            | none => none
          | none => some false
         else some false) with
  | none => none
  | some isYarn1 => some (rewriteCommand customCommand pkgManager isYarn1)

def targetDirToken : List Char := "TARGET_DIR".toList

/-- Delegate branch of `init`: the full custom command is split on single
spaces into a command name and argument tokens, and `TARGET_DIR` is
replaced in each argument token by the JavaScript string-pattern `replace`,
which substitutes only the first occurrence. -/
def delegateCommandArgs (fullCustomCommand targetDir : List Char) :
    List Char × List (List Char) :=
  match jsSplit ' ' fullCustomCommand with
  | [] => ([], [])
  | command :: args =>
    (command, args.map (replaceFirst targetDirToken targetDir))

/-- Replace every non-overlapping occurrence of `pat` by `rep`, scanning
left to right; `fuel` bounds the recursion, and any value at least the
length of the list suffices for a nonempty pattern. -/
def replaceAllAux (pat rep : List Char) : Nat → List Char → List Char
  | _, [] => []
  | 0, l => l
  | fuel + 1, c :: cs =>
    if pat ≠ [] ∧ pat.isPrefixOf (c :: cs) then
      rep ++ replaceAllAux pat rep fuel ((c :: cs).drop pat.length)
    else c :: replaceAllAux pat rep fuel cs

/-- Replace every non-overlapping occurrence of `pat` in `l` by `rep`. -/
def replaceAll (pat rep l : List Char) : List Char :=
  replaceAllAux pat rep l.length l

/-- Count the non-overlapping, left-to-right occurrences of `pat`;
`fuel` as in `replaceAllAux`. -/
def countOccAux (pat : List Char) : Nat → List Char → Nat
  | _, [] => 0
  | 0, _ => 0
  | fuel + 1, c :: cs =>
    if pat ≠ [] ∧ pat.isPrefixOf (c :: cs) then
      1 + countOccAux pat fuel ((c :: cs).drop pat.length)
    else countOccAux pat fuel cs

/-- Number of non-overlapping occurrences of `pat` in `l`. -/
def countOcc (pat l : List Char) : Nat := countOccAux pat l.length l

/-- Modelled from the spec: the substitution as claim C5 words it, with
every occurrence of `TARGET_DIR` in every argument token replaced. -/
def delegateCommandArgsSpec (fullCustomCommand targetDir : List Char) :
    List Char × List (List Char) :=
  match jsSplit ' ' fullCustomCommand with
  | [] => ([], [])
  | command :: args =>
    (command, args.map (replaceAll targetDirToken targetDir))

/-- Claim C2: the command-rewriting table holds for all four literal
scenarios — pnpm keeps `@latest` and swaps the manager token, yarn 1 drops
`@latest`, bun rewrites `npm exec` to `bun x`, and with no package-manager
info the command is unchanged — and the `TARGET_DIR` placeholder in the
argument tokens is afterwards substituted with the target directory. -/
theorem getFullCustomCommand_table :
    getFullCustomCommand ("npm create vite@latest TARGET_DIR".toList)
      (some ⟨"pnpm".toList, some ("8.0.0".toList)⟩) =
      some ("pnpm create vite@latest TARGET_DIR".toList) ∧
    getFullCustomCommand ("npm create vite@latest TARGET_DIR".toList)
      (some ⟨"yarn".toList, some ("1.22.0".toList)⟩) =
      some ("yarn create vite TARGET_DIR".toList) ∧
    getFullCustomCommand ("npm exec create-foo".toList)
      (some ⟨"bun".toList, some ("1.0.0".toList)⟩) =
      some ("bun x create-foo".toList) ∧
    getFullCustomCommand ("npm create vite@latest TARGET_DIR".toList) none =
      some ("npm create vite@latest TARGET_DIR".toList) ∧
    delegateCommandArgs ("pnpm create vite@latest TARGET_DIR".toList)
      ("my-app".toList) =
      ("pnpm".toList,
        ["create".toList, "vite@latest".toList, "my-app".toList]) := by
  decide

/-- Claim C10: a user agent whose first token contains no `/` (here just
`"yarn"`) yields a `PkgInfo` whose version is undefined, and
`getFullCustomCommand` then dereferences that undefined version — failing
(returning `none`) for every command string instead of producing a
rewritten command. -/
theorem getFullCustomCommand_yarn_no_version :
    pkgFromUserAgent (some ("yarn".toList)) = some ⟨"yarn".toList, none⟩ ∧
    ∀ customCommand, getFullCustomCommand customCommand
      (some ⟨"yarn".toList, none⟩) = none := by
  refine ⟨by decide, fun customCommand => rfl⟩

theorem replaceAllAux_of_countOcc_zero {pat rep : List Char} (hp : pat ≠ []) :
    ∀ (fuel : Nat) (l : List Char), l.length ≤ fuel →
      countOccAux pat fuel l = 0 → replaceAllAux pat rep fuel l = l := by
  intro fuel
  induction fuel with
  | zero =>
    intro l hl _
    cases l with
    | nil => rfl
    | cons c cs => simp at hl
  | succ fuel ih =>
    intro l hl hc
    cases l with
    | nil => rfl
    | cons c cs =>
      by_cases hpre : pat.isPrefixOf (c :: cs)
      · exfalso
        simp only [countOccAux, if_pos (And.intro hp hpre)] at hc
        omega
      · have hcond : ¬(pat ≠ [] ∧ pat.isPrefixOf (c :: cs)) :=
          fun h => hpre h.2
        simp only [countOccAux, if_neg hcond] at hc
        simp only [replaceAllAux, if_neg hcond]
        have hlen : cs.length ≤ fuel := by
          simp only [List.length_cons] at hl
          omega
        rw [ih cs hlen hc]

theorem replaceFirst_of_countOcc_zero {pat rep : List Char} (hp : pat ≠ []) :
    ∀ (fuel : Nat) (l : List Char), l.length ≤ fuel →
      countOccAux pat fuel l = 0 → replaceFirst pat rep l = l := by
  intro fuel
  induction fuel with
  | zero =>
    intro l hl _
    cases l with
    | nil =>
      simp only [replaceFirst]
      rw [if_neg]
      intro hpre
      cases pat with
      | nil => exact hp rfl
      | cons p ps => simp [List.isPrefixOf] at hpre
    | cons c cs => simp at hl
  | succ fuel ih =>
    intro l hl hc
    cases l with
    | nil =>
      simp only [replaceFirst]
      rw [if_neg]
      intro hpre
      cases pat with
      | nil => exact hp rfl
      | cons p ps => simp [List.isPrefixOf] at hpre
    | cons c cs =>
      by_cases hpre : pat.isPrefixOf (c :: cs)
      · exfalso
        simp only [countOccAux, if_pos (And.intro hp hpre)] at hc
        omega
      · have hcond : ¬(pat ≠ [] ∧ pat.isPrefixOf (c :: cs)) :=
          fun h => hpre h.2
        simp only [countOccAux, if_neg hcond] at hc
        simp only [replaceFirst, if_neg hpre]
        have hlen : cs.length ≤ fuel := by
          simp only [List.length_cons] at hl
          omega
        rw [ih cs hlen hc]

theorem replaceFirst_eq_replaceAllAux {pat rep : List Char} (hp : pat ≠ []) :
    ∀ (fuel : Nat) (l : List Char), l.length ≤ fuel →
      countOccAux pat fuel l ≤ 1 →
      replaceFirst pat rep l = replaceAllAux pat rep fuel l := by
  intro fuel
  induction fuel with
  | zero =>
    intro l hl _
    cases l with
    | nil =>
      simp only [replaceFirst, replaceAllAux]
      rw [if_neg]
      intro hpre
      cases pat with
      | nil => exact hp rfl
      | cons p ps => simp [List.isPrefixOf] at hpre
    | cons c cs => simp at hl
  | succ fuel ih =>
    intro l hl hc
    cases l with
    | nil =>
      simp only [replaceFirst, replaceAllAux]
      rw [if_neg]
      intro hpre
      cases pat with
      | nil => exact hp rfl
      | cons p ps => simp [List.isPrefixOf] at hpre
    | cons c cs =>
      by_cases hpre : pat.isPrefixOf (c :: cs)
      · simp only [countOccAux, if_pos (And.intro hp hpre)] at hc
        have hzero : countOccAux pat fuel ((c :: cs).drop pat.length) = 0 := by
          omega
        simp only [replaceFirst, if_pos hpre, replaceAllAux,
          if_pos (And.intro hp hpre)]
        have hdlen : ((c :: cs).drop pat.length).length ≤ fuel := by
          rw [List.length_drop]
          simp only [List.length_cons] at hl ⊢
          cases pat with
          | nil => exact absurd rfl hp
          | cons p ps => simp; omega
        rw [replaceAllAux_of_countOcc_zero hp fuel _ hdlen hzero]
      · have hcond : ¬(pat ≠ [] ∧ pat.isPrefixOf (c :: cs)) :=
          fun h => hpre h.2
        simp only [countOccAux, if_neg hcond] at hc
        simp only [replaceFirst, if_neg hpre, replaceAllAux, if_neg hcond]
        have hlen : cs.length ≤ fuel := by
          simp only [List.length_cons] at hl
          omega
        rw [ih cs hlen hc]

/-- Claim C5 (counterexample): the delegate branch substitutes only the
first occurrence of `TARGET_DIR` per argument token, not every occurrence:
on the argument `TARGET_DIR-TARGET_DIR` with target `x` the code produces
`x-TARGET_DIR` while the claimed every-occurrence substitution gives
`x-x`. -/
theorem delegateCommandArgs_first_occurrence_only :
    delegateCommandArgs ("run TARGET_DIR-TARGET_DIR".toList) ("x".toList) ≠
      delegateCommandArgsSpec ("run TARGET_DIR-TARGET_DIR".toList)
        ("x".toList) := by
  decide

/-- Claim C5 (amended): when the orchestrator runs a delegate command, the
first occurrence of the literal token `TARGET_DIR` in each argument token
is substituted with the target directory — hence every occurrence is
substituted exactly once whenever each argument token contains at most one
occurrence — and the command name (the first space-delimited token) is
never substituted. -/
theorem delegateCommandArgs_spec (full targetDir : List Char)
    (h : ∀ arg ∈ (jsSplit ' ' full).tail, countOcc targetDirToken arg ≤ 1) :
    delegateCommandArgs full targetDir =
      delegateCommandArgsSpec full targetDir ∧
    (delegateCommandArgs full targetDir).1 = (jsSplit ' ' full).headD [] := by
  cases hs : jsSplit ' ' full with
  | nil => simp [delegateCommandArgs, delegateCommandArgsSpec, hs]
  | cons command args =>
    have hmap : args.map (replaceFirst targetDirToken targetDir) =
        args.map (replaceAll targetDirToken targetDir) := by
      apply List.map_congr_left
      intro arg harg
      have hcount : countOcc targetDirToken arg ≤ 1 := by
        apply h
        rw [hs]
        exact harg
      exact replaceFirst_eq_replaceAllAux (by decide) arg.length arg
        (Nat.le_refl _) hcount
    simp [delegateCommandArgs, delegateCommandArgsSpec, hs, hmap]

/-- Witness for the amended claim C5 at the concrete delegate command
`pnpm create vite@latest TARGET_DIR` and target directory `my-app`. -/
theorem delegateCommandArgs_spec_witness :
    delegateCommandArgs ("pnpm create vite@latest TARGET_DIR".toList)
        ("my-app".toList) =
      delegateCommandArgsSpec ("pnpm create vite@latest TARGET_DIR".toList)
        ("my-app".toList) ∧
    (delegateCommandArgs ("pnpm create vite@latest TARGET_DIR".toList)
        ("my-app".toList)).1 =
      (jsSplit ' ' ("pnpm create vite@latest TARGET_DIR".toList)).headD [] :=
  delegateCommandArgs_spec ("pnpm create vite@latest TARGET_DIR".toList)
    ("my-app".toList) (by decide)

/-- Modelled from the spec: the resolver exactly as claim C6 words it — the
first whitespace-delimited token is read, the name is the part of it before
the first `/`, and the version is all of the token after that first `/`. -/
def specPkgResolver : Option (List Char) → Option PkgInfo
  | none => none
  | some ua =>
    if ua = [] then none
    else
      some ⟨((ua.takeWhile fun c => !isJsWhitespace c).takeWhile
              fun c => c != '/'),
            match (ua.takeWhile fun c => !isJsWhitespace c).dropWhile
                (fun c => c != '/') with
            | [] => none
            | _ :: after => some after⟩

/-- The resolver as the code actually behaves, worded spec-style: the first
token delimited by single spaces; the name is the part of that token before
its first `/`; the version is the part between the first and the second `/`
(absent when the token contains no `/`). -/
def specPkgResolverAmended : Option (List Char) → Option PkgInfo
  | none => none
  | some ua =>
    if ua = [] then none
    else
      some ⟨((ua.takeWhile fun c => c != ' ').takeWhile fun c => c != '/'),
            match (ua.takeWhile fun c => c != ' ').dropWhile
                (fun c => c != '/') with
            | [] => none
            | _ :: after => some (after.takeWhile fun c => c != '/')⟩

theorem jsSplit_ne_nil (sep : Char) (l : List Char) : jsSplit sep l ≠ [] := by
  cases l with
  | nil => simp [jsSplit]
  | cons c cs =>
    by_cases hc : c = sep
    · simp [jsSplit, hc]
    · simp only [jsSplit, if_neg hc]
      cases jsSplit sep cs with
      | nil => simp
      | cons t ts => simp

theorem jsSplit_headD (sep : Char) (l : List Char) :
    (jsSplit sep l).headD [] = l.takeWhile fun c => c != sep := by
  induction l with
  | nil => rfl
  | cons c cs ih =>
    by_cases hc : c = sep
    · subst hc
      simp [jsSplit, List.takeWhile_cons]
    · simp only [jsSplit, if_neg hc]
      cases hcs : jsSplit sep cs with
      | nil => exact absurd hcs (jsSplit_ne_nil sep cs)
      | cons t ts =>
        rw [hcs] at ih
        simp only [List.headD_cons] at ih
        simp [List.takeWhile_cons, bne_iff_ne, hc, ← ih]

theorem jsSplit_getElem_one (sep : Char) (l : List Char) :
    (jsSplit sep l)[1]? =
      (match l.dropWhile (fun c => c != sep) with
       | [] => none
       | _ :: rest => some (rest.takeWhile fun c => c != sep)) := by
  induction l with
  | nil => rfl
  | cons c cs ih =>
    by_cases hc : c = sep
    · subst hc
      simp only [jsSplit, if_pos rfl]
      have hne := jsSplit_ne_nil c cs
      cases hcs : jsSplit c cs with
      | nil => exact absurd hcs hne
      | cons t ts =>
        have hh := jsSplit_headD c cs
        rw [hcs] at hh
        simp only [List.headD_cons] at hh
        have hdw : (c :: cs).dropWhile (fun x => x != c) = c :: cs := by
          rw [List.dropWhile_cons_of_neg]
          simp
        rw [hdw]
        simp [hh]
    · simp only [jsSplit, if_neg hc]
      have hdw : (c :: cs).dropWhile (fun x => x != sep) =
          cs.dropWhile fun x => x != sep := by
        rw [List.dropWhile_cons_of_pos]
        simp [bne_iff_ne, hc]
      cases hcs : jsSplit sep cs with
      | nil => exact absurd hcs (jsSplit_ne_nil sep cs)
      | cons t ts =>
        rw [hcs] at ih
        rw [hdw, ← ih]
        rfl

/-- Claim C6 (counterexample): `pkgFromUserAgent` does not read a
whitespace-delimited token (only a space-delimited one) and does not return
everything after the first `/` as the version (only the part up to the next
`/`): on `"a/b/c"` the code yields version `b` where the claim says `b/c`,
and on `"npm/1.0<TAB>x npm/6"` the code yields version `1.0<TAB>x` where
the claim says `1.0`. -/
theorem pkgFromUserAgent_not_spec :
    pkgFromUserAgent (some ("a/b/c".toList)) ≠
      specPkgResolver (some ("a/b/c".toList)) ∧
    pkgFromUserAgent (some ("npm/1.0\tx npm/6".toList)) ≠
      specPkgResolver (some ("npm/1.0\tx npm/6".toList)) := by
  decide

/-- Claim C6 (amended): `pkgFromUserAgent` returns nothing when its input
is absent or empty; otherwise it reads only the first space-delimited token
of the input, splits it on `/`, and returns the part before the first `/`
as the name and the part between the first and the second `/` (absent if
the token has no `/`) as the version. -/
theorem pkgFromUserAgent_spec (input : Option (List Char)) :
    pkgFromUserAgent input = specPkgResolverAmended input := by
  cases input with
  | none => rfl
  | some ua =>
    by_cases hu : ua = []
    · subst hu; rfl
    · simp only [pkgFromUserAgent, specPkgResolverAmended, if_neg hu]
      rw [jsSplit_headD ' ' ua, jsSplit_headD '/', jsSplit_getElem_one '/']

/-! Directory classification (source `isEmpty`, src/index.ts:334-337),
clearing (source `emptyDir`, src/index.ts:339-349) and materialization
(src/index.ts:225-274). -/

def gitEntryName : List Char := ".git".toList

/-- Source `isEmpty` over a directory's entry listing:
`files.length === 0 || (files.length === 1 && files[0] === '.git')`. -/
def isEmptyListing (files : List (List Char)) : Bool :=
  files.length == 0 || (files.length == 1 && files.headD [] == gitEntryName)

/-- Claim C7: the classification is exact — the empty listing and the
listing whose only entry is `.git` classify as empty, and every other
listing classifies as non-empty. -/
theorem isEmptyListing_iff (files : List (List Char)) :
    isEmptyListing files = true ↔ (files = [] ∨ files = [gitEntryName]) := by
  cases files with
  | nil => simp [isEmptyListing]
  | cons f fs =>
    cases fs with
    | nil => simp [isEmptyListing]
    | cons g gs => simp [isEmptyListing]

/-- A directory listing at the top level: entry names paired with opaque
contents (file bytes, or a whole serialized subtree for a directory entry;
an entry is copied, kept, or removed as a unit). -/
abbrev DirListing := List (List Char × List Char)

/-- Source `emptyDir` body over an existing directory's listing: every
entry whose name is not `.git` is removed (recursively, as one unit), and
a `.git` entry is skipped — surviving untouched. -/
def emptyDirListing (d : DirListing) : DirListing :=
  d.filter fun e => e.1 == gitEntryName

/-- Source `emptyDir` with its existence guard: a missing directory
(`none`) is returned untouched without failing. -/
def emptyDirOpt : Option DirListing → Option DirListing
  | none => none
  | some d => some (emptyDirListing d)

/-- Conflict resolution of `init` under the forced `--overwrite` flag
(src/index.ts:131-164): when the target exists and is not semantically
empty it is cleared with `emptyDir`; afterwards the recursive `mkdirSync`
(src/index.ts:225-226) creates the directory if it was absent. -/
def scaffoldTargetOverwrite : Option DirListing → DirListing
  | none => []
  | some d => if isEmptyListing (d.map Prod.fst) then d else emptyDirListing d

/-- The left curly bracket character (written by code point to keep JSON
output text out of the source of string literals). -/
def lcurly : Char := Char.ofNat 123

/-- The right curly bracket character. -/
def rcurly : Char := Char.ofNat 125

/-- JSON values as `JSON.parse` produces them. -/
inductive Json where
  | str (s : List Char)
  | num (n : Int)
  | boolean (b : Bool)
  | null
  | arr (elems : List Json)
  | obj (fields : List (List Char × Json))

/-- Lowercase hexadecimal digit. -/
def hexDigit (n : Nat) : Char :=
  if n < 10 then Char.ofNat (48 + n) else Char.ofNat (87 + n)

/-- JSON string escaping as `JSON.stringify` performs it. -/
def escapeJsonChar (c : Char) : List Char :=
  if c = '"' then ['\\', '"']
  else if c = '\\' then ['\\', '\\']
  else if c = '\n' then ['\\', 'n']
  else if c = '\r' then ['\\', 'r']
  else if c = '\t' then ['\\', 't']
  else if c = Char.ofNat 8 then ['\\', 'b']
  else if c = Char.ofNat 12 then ['\\', 'f']
  else if c.toNat < 32 then
    ['\\', 'u', '0', '0', hexDigit (c.toNat / 16), hexDigit (c.toNat % 16)]
  else [c]

/-- A JSON-quoted string. -/
def quoteJson (s : List Char) : List Char :=
  '"' :: (s.map escapeJsonChar).flatten ++ ['"']

/-- Decimal rendering of a JSON integer. -/
def intToChars : Int → List Char
  | Int.ofNat n => Nat.toDigits 10 n
  | Int.negSucc n => '-' :: Nat.toDigits 10 (n + 1)

/-- Indentation of `JSON.stringify(v, null, 2)` at nesting depth `d`. -/
def indentChars (d : Nat) : List Char := List.replicate (2 * d) ' '

mutual

/-- `JSON.stringify(v, null, 2)` at nesting depth `d`: every member of a
non-empty object or array stands on its own line indented two more spaces,
the closing bracket returns to the current indentation, and the empty
object and array print with no newline at all. -/
def jsonStringify (d : Nat) : Json → List Char
  | Json.str s => quoteJson s
  | Json.num n => intToChars n
  | Json.boolean true => "true".toList
  | Json.boolean false => "false".toList
  | Json.null => "null".toList
  | Json.arr [] => "[]".toList
  | Json.arr (x :: xs) =>
    '[' :: '\n' :: (jsonMembers (d + 1) (x :: xs) ++
      '\n' :: (indentChars d ++ [']']))
  | Json.obj [] => [lcurly, rcurly]
  | Json.obj (f :: fs) =>
    lcurly :: '\n' :: (jsonFields (d + 1) (f :: fs) ++
      '\n' :: (indentChars d ++ [rcurly]))

/-- Array members, one per line, comma-separated. -/
def jsonMembers (d : Nat) : List Json → List Char
  | [] => []
  | [x] => indentChars d ++ jsonStringify d x
  | x :: y :: xs =>
    indentChars d ++ (jsonStringify d x ++
      ',' :: '\n' :: jsonMembers d (y :: xs))

/-- Object fields, one per line, `"key": value`, comma-separated. -/
def jsonFields (d : Nat) : List (List Char × Json) → List Char
  | [] => []
  | [(k, v)] => indentChars d ++ (quoteJson k ++ ':' :: ' ' :: jsonStringify d v)
  | (k, v) :: f :: fs =>
    indentChars d ++ (quoteJson k ++ ':' :: ' ' :: (jsonStringify d v ++
      ',' :: '\n' :: jsonFields d (f :: fs)))

end

/-- JavaScript assignment `pkg.name = value` on a parsed JSON value: on an
object an existing field of that key keeps its position and receives the
new value, otherwise the field is appended; on any non-object value the
assignment is not observable in the serialized output. -/
def jsonSetField (v : Json) (key : List Char) (val : Json) : Json :=
  match v with
  | Json.obj fields =>
    if fields.any fun f => f.1 == key then
      Json.obj (fields.map fun f => if f.1 == key then (key, val) else f)
    else Json.obj (fields ++ [(key, val)])
  | other => other

def pkgJsonName : List Char := "package.json".toList

/-- Source `renameFiles` table (src/index.ts:92-95): `_gitignore` becomes
`.gitignore` and `_env` becomes `.env`; every other name is kept. -/
def renameFile (f : List Char) : List Char :=
  if f == "_gitignore".toList then (".gitignore".toList)
  else if f == "_env".toList then (".env".toList)
  else f

/-- Write an entry into a directory listing, replacing the entry of the
same name in place when present and appending otherwise.  (For a directory
entry the source's recursive copy merges member-by-member into an existing
directory of that name; the properties proved below concern entry names,
the patched `package.json`, and template-independence, on which the two
behaviours agree because in the claims at issue materialization only ever
writes into a cleared or fresh target.) -/
def writeEntry : DirListing → List Char → List Char → DirListing
  | [], name, content => [(name, content)]
  | e :: es, name, content =>
    if e.1 == name then (name, content) :: es
    else e :: writeEntry es name content

/-- Look up a top-level entry's content by name. -/
def lookupEntry (name : List Char) (d : DirListing) : Option (List Char) :=
  (d.find? fun e => e.1 == name).map Prod.snd

/-- Materialization loop of `init` (src/index.ts:254-274): copy every
template entry except `package.json` under its renamed name, then write
the patched `package.json` — the template's parsed `package.json` object
with its `name` field set to the resolved package name, serialized with
two-space indentation and a trailing newline. -/
def materialize (templateFiles : DirListing) (pkg : Json)
    (packageName : List Char) (root : DirListing) : DirListing :=
  writeEntry
    ((templateFiles.filter fun e => e.1 != pkgJsonName).foldl
      (fun acc e => writeEntry acc (renameFile e.1) e.2) root)
    pkgJsonName
    (jsonStringify 0 (jsonSetField pkg ("name".toList)
      (Json.str packageName)) ++ ['\n'])


theorem lookupEntry_writeEntry_ne {n m : List Char} (h : n ≠ m)
    (d : DirListing) (c : List Char) :
    lookupEntry n (writeEntry d m c) = lookupEntry n d := by
  induction d with
  | nil =>
    have hmn : (m == n) = false := by simp [Ne.symm h]
    simp [writeEntry, lookupEntry, List.find?, hmn]
  | cons e es ih =>
    by_cases hem : (e.1 == m) = true
    · have hem' : e.1 = m := by simpa using hem
      have hmn : (m == n) = false := by simp [Ne.symm h]
      have hen : (e.1 == n) = false := by simp [hem', Ne.symm h]
      simp [writeEntry, lookupEntry, hem, List.find?_cons, hmn, hen]
    · have hem'' : (e.1 == m) = false := by simpa using hem
      by_cases hen : (e.1 == n) = true
      · simp [writeEntry, lookupEntry, hem'', List.find?_cons, hen]
      · have hen' : (e.1 == n) = false := by simpa using hen
        unfold lookupEntry at ih
        simp [writeEntry, lookupEntry, hem'', List.find?_cons, hen', ih]

theorem lookupEntry_writeEntry_self (d : DirListing) (n c : List Char) :
    lookupEntry n (writeEntry d n c) = some c := by
  induction d with
  | nil => simp [writeEntry, lookupEntry, List.find?]
  | cons e es ih =>
    by_cases hen : (e.1 == n) = true
    · simp [writeEntry, lookupEntry, hen, List.find?_cons]
    · have hen' : (e.1 == n) = false := by simpa using hen
      unfold lookupEntry at ih
      simp [writeEntry, lookupEntry, hen', List.find?_cons, ih]

theorem lookupEntry_eq_none {n : List Char} {d : DirListing}
    (h : ∀ e ∈ d, e.1 ≠ n) : lookupEntry n d = none := by
  unfold lookupEntry
  have hfind : (d.find? fun e => e.1 == n) = none := by
    rw [List.find?_eq_none]
    intro x hx hpx
    exact h x hx (by simpa using hpx)
  simp [hfind]

theorem lookupEntry_foldl_write {n : List Char} :
    ∀ (entries : DirListing) (root : DirListing),
      lookupEntry n root = none →
      (∀ e ∈ entries, renameFile e.1 ≠ n) →
      lookupEntry n (entries.foldl
        (fun acc e => writeEntry acc (renameFile e.1) e.2) root) = none := by
  intro entries
  induction entries with
  | nil => intro root h _; exact h
  | cons e es ih =>
    intro root h hall
    simp only [List.foldl_cons]
    apply ih
    · rw [lookupEntry_writeEntry_ne
        (Ne.symm (hall e (List.mem_cons_self e es)))]
      exact h
    · intro x hx
      exact hall x (List.mem_cons_of_mem e hx)

theorem entries_git_of_isEmptyListing {d : DirListing}
    (h : isEmptyListing (d.map Prod.fst) = true) :
    ∀ e ∈ d, e.1 = gitEntryName := by
  cases d with
  | nil => intro e he; simp at he
  | cons x xs =>
    cases xs with
    | nil =>
      intro e he
      simp only [List.mem_singleton] at he
      subst he
      simp [isEmptyListing] at h
      exact h
    | cons y ys =>
      exfalso
      simp [isEmptyListing] at h

/-- Claim C8: `emptyDir` keeps exactly the `.git` entry, unchanged, and
removes every other top-level entry; it is a no-op (and does not fail)
when the path does not exist; and in the forced-overwrite scenario the
clearing happens before materialization writes, so no pre-existing entry
other than `.git` — or one freshly written from the template or as the
generated `package.json` — appears in the final tree. -/
theorem emptyDir_spec :
    (∀ (d : DirListing) (e : List Char × List Char),
      e ∈ emptyDirListing d ↔ e ∈ d ∧ e.1 = gitEntryName) ∧
    emptyDirOpt none = none ∧
    (∀ (target templateFiles : DirListing) (pkg : Json)
        (packageName n : List Char),
      n ≠ gitEntryName → n ≠ pkgJsonName →
      (∀ e ∈ templateFiles, renameFile e.1 ≠ n) →
      lookupEntry n (materialize templateFiles pkg packageName
        (scaffoldTargetOverwrite (some target))) = none) := by
  refine ⟨?_, rfl, ?_⟩
  · intro d e
    unfold emptyDirListing
    rw [List.mem_filter]
    constructor
    · intro he
      exact ⟨he.1, by simpa using he.2⟩
    · intro he
      exact ⟨he.1, by simpa using he.2⟩
  · intro target templateFiles pkg packageName n hgit hpkg hall
    unfold materialize
    rw [lookupEntry_writeEntry_ne hpkg]
    apply lookupEntry_foldl_write
    · apply lookupEntry_eq_none
      intro e he
      have heq : scaffoldTargetOverwrite (some target) =
          if isEmptyListing (target.map Prod.fst) then target
          else emptyDirListing target := rfl
      rw [heq] at he
      by_cases hempty : isEmptyListing (target.map Prod.fst) = true
      · rw [if_pos hempty] at he
        exact fun hen => hgit (hen ▸ entries_git_of_isEmptyListing hempty e he)
      · rw [if_neg hempty] at he
        unfold emptyDirListing at he
        rw [List.mem_filter] at he
        exact fun hen => hgit (hen ▸ (by simpa using he.2))
    · intro e he
      exact hall e (List.mem_of_mem_filter he)

/-- Witness for claim C8: a pre-existing entry `old` is gone from the final
tree produced by the forced-overwrite scaffold of a `_gitignore`-only
template. -/
theorem emptyDir_spec_witness :
    lookupEntry ("old".toList)
      (materialize [(("_gitignore".toList), ("ignored".toList))]
        (Json.obj []) ("p".toList)
        (scaffoldTargetOverwrite
          (some [(("old".toList), ("data".toList))]))) = none :=
  emptyDir_spec.2.2 [(("old".toList), ("data".toList))]
    [(("_gitignore".toList), ("ignored".toList))] (Json.obj [])
    ("p".toList) ("old".toList) (by decide) (by decide) (by decide)

/-- Claim C9: materialization writes `package.json` by patching the parsed
template package object's `name` field and serializing it with two-space
indentation plus a trailing newline; the template's own `package.json`
entry is excluded from the bulk copy (prepending such an entry changes
nothing, so its bytes are never copied); and the patched name leaks into
no other file — every entry other than `package.json` is identical no
matter which package name is used. -/
theorem materialize_packageJson :
    (∀ (templateFiles : DirListing) (pkg : Json) (packageName : List Char)
        (root : DirListing),
      lookupEntry pkgJsonName
          (materialize templateFiles pkg packageName root) =
        some (jsonStringify 0 (jsonSetField pkg ("name".toList)
          (Json.str packageName)) ++ ['\n'])) ∧
    (∀ (templateFiles : DirListing) (raw : List Char) (pkg : Json)
        (packageName : List Char) (root : DirListing),
      materialize ((pkgJsonName, raw) :: templateFiles) pkg packageName root =
        materialize templateFiles pkg packageName root) ∧
    (∀ (templateFiles : DirListing) (pkg : Json) (n₁ n₂ : List Char)
        (root : DirListing) (f : List Char), f ≠ pkgJsonName →
      lookupEntry f (materialize templateFiles pkg n₁ root) =
        lookupEntry f (materialize templateFiles pkg n₂ root)) := by
  refine ⟨?_, ?_, ?_⟩
  · intro templateFiles pkg packageName root
    unfold materialize
    exact lookupEntry_writeEntry_self _ _ _
  · intro templateFiles raw pkg packageName root
    unfold materialize
    have hfil : (((pkgJsonName, raw) :: templateFiles).filter
        fun e => e.1 != pkgJsonName) =
        templateFiles.filter fun e => e.1 != pkgJsonName := by
      rw [List.filter_cons_of_neg]
      simp
    rw [hfil]
  · intro templateFiles pkg n₁ n₂ root f hf
    unfold materialize
    rw [lookupEntry_writeEntry_ne hf, lookupEntry_writeEntry_ne hf]

/-- Witness for claim C9: the copied `_gitignore` entry (renamed to
`.gitignore`) is the same whether the package name is `a` or `b`. -/
theorem materialize_packageJson_witness :
    lookupEntry (".gitignore".toList)
        (materialize [(("_gitignore".toList), ("x".toList))] (Json.obj [])
          ("a".toList) []) =
      lookupEntry (".gitignore".toList)
        (materialize [(("_gitignore".toList), ("x".toList))] (Json.obj [])
          ("b".toList) []) :=
  materialize_packageJson.2.2 [(("_gitignore".toList), ("x".toList))]
    (Json.obj []) ("a".toList) ("b".toList) [] (".gitignore".toList)
    (by decide)
